import Mathlib

/-!
Verification of the PLSA EM engine implemented in `plsa.py`.

The Python program fits a Probabilistic Latent Semantic Analysis model by
Expectation-Maximization.  We embed it shallowly:

* dense float matrices become `List (List ℚ)` (all arithmetic the program
  performs on them is field arithmetic, so exact rationals model it);
* the per-document/word/topic posterior tensor becomes `List (List (List ℚ))`;
* fallible steps return an `Outcome`: a normal value, a raised Python
  exception (carrying its message), or process termination via `exit(code)` —
  the E-step's `exit(0)` is distinct from a raised exception;
* `math.log(x, 2)` is abstracted by a parameter `lg : ℚ → α` into an ordered
  field `α` of "log values"; instantiating `α := ℝ`, `lg := Real.logb 2 ∘ (↑·)`
  recovers the genuine base-2 logarithm, while `α := ℚ` with a concrete `lg`
  keeps everything executable for concrete runs;
* `np.random.random_sample` is modelled by oracle functions `r1 r2 : ℕ → ℕ → ℚ`
  supplying the random draws (the code never inspects them beyond using the
  resulting matrices).

Each method of the Python class `Corpus` becomes a function from the corpus
state to a new state (wrapped in `Outcome` when the method can raise or exit).
-/

set_option maxHeartbeats 1000000
set_option linter.unusedVariables false
set_option linter.unusedSectionVars false

namespace Plsa

abbrev Mat : Type := List (List ℚ)

abbrev Mat3 : Type := List (List (List ℚ))

/-- entry `A[i][j]` of a 2-d matrix; `0` out of range (the source only reads
in-range entries). -/
def mget (A : Mat) (i j : ℕ) : ℚ := (A.getD i []).getD j 0

/-- entry `Z[d][k][w]` of a 3-d tensor; `0` out of range. -/
def tget (Z : Mat3) (d k w : ℕ) : ℚ := ((Z.getD d []).getD k []).getD w 0

/-- a fresh `m × n` matrix with entry `(i, j)` equal to `f i j`. -/
def mkMat (m n : ℕ) (f : ℕ → ℕ → ℚ) : Mat :=
  (List.range m).map fun i => (List.range n).map fun j => f i j

/-- a fresh `a × b × c` tensor with entry `(d, k, w)` equal to `f d k w`. -/
def mkMat3 (a b c : ℕ) (f : ℕ → ℕ → ℕ → ℚ) : Mat3 :=
  (List.range a).map fun d => (List.range b).map fun k => (List.range c).map fun w => f d k w

/-- in-place write of `f i j` into every cell `(i, j)` with `i < m`, `j < n`
of an existing matrix, keeping its shape and its other entries (this models
the element-wise assignments the Python M-step performs on the stored
`topic_word_prob` / `document_topic_prob` arrays). -/
def overwrite (A : Mat) (m n : ℕ) (f : ℕ → ℕ → ℚ) : Mat :=
  (List.range A.length).map fun i =>
    (List.range (A.getD i []).length).map fun j =>
      if i < m ∧ j < n then f i j else mget A i j

/-- result of running a piece of the Python program: a normal value, a raised
exception carrying its message, or process termination via `exit(code)`. -/
inductive Outcome (β : Type) : Type where
  | ok : β → Outcome β
  | error : String → Outcome β
  | exited : ℕ → Outcome β
deriving DecidableEq

/-- sequencing of Python statements: an exception or an `exit` short-circuits. -/
def Outcome.bind {β γ : Type} : Outcome β → (β → Outcome γ) → Outcome γ
  | .ok b, f => f b
  | .error e, _ => .error e
  | .exited n, _ => .exited n

/-- the message of the exception raised by `normalize`. -/
def normMsg : String := "Error while normalizing. Row(s) sum to zero"

/-- the `assert` of `normalize`:
`np.count_nonzero(row_sums) == np.shape(row_sums)[0]`, i.e. no row sums to zero. -/
def noZeroRows (A : Mat) : Prop := ∀ s ∈ A.map List.sum, s ≠ 0

instance (A : Mat) : Decidable (noZeroRows A) := List.decidableBAll _ _

/-- `normalize(input_matrix)`: checks that no row sums to zero, raising an
exception otherwise, then divides every entry by its row sum. -/
def normalize (input_matrix : Mat) : Outcome Mat :=
  if noZeroRows input_matrix then
    .ok (input_matrix.map fun row => row.map fun x => x / row.sum)
  else .error normMsg

/-- state of a Python `Corpus` object.  `α` is the type of log-likelihood
values (see the file comment); `term_doc_matrix = []` models the initial
`None`. -/
structure Corpus (α : Type) : Type where
  documents : List (List String)
  vocabulary : List String
  likelihoods : List α
  documents_path : String
  term_doc_matrix : Mat
  document_topic_prob : Mat
  topic_word_prob : Mat
  topic_prob : Mat3
  number_of_documents : ℕ
  vocabulary_size : ℕ
deriving DecidableEq

variable {α : Type} [LinearOrderedField α]

/-- `Corpus.__init__`: empty document list, empty tables. -/
def Corpus.init (α : Type) (documents_path : String) : Corpus α :=
  ⟨[], [], [], documents_path, [], [], [], [], 0, 0⟩

/-- `Corpus.build_corpus`: one document per file line, each line split into
whitespace-separated tokens.  Reading the file and splitting each line
(Python's `str.split()`) is I/O and data-prep the spec treats as an external
collaborator, so the method receives `lines` already tokenized: `lines[i]` is
the token list of line `i`, and a line with no tokens arrives as `[]`. -/
def Corpus.build_corpus (c : Corpus α) (lines : List (List String)) : Corpus α :=
  { c with documents := lines, number_of_documents := lines.length }

/-- `Corpus.build_vocabulary`: the unique words of the corpus.  Python's
`list(set(...))` enumerates in an unspecified order; we fix first-occurrence
order (`dedup`), one legitimate refinement of that order. -/
def Corpus.build_vocabulary (c : Corpus α) : Corpus α :=
  let voc := c.documents.flatten.dedup
  { c with vocabulary := voc, vocabulary_size := voc.length }

/-- `Corpus.build_term_doc_matrix`: `matrix[i, j] = documents[i].count(vocabulary[j])`
(the initial `np.ones` is fully overwritten because every cell is assigned). -/
def Corpus.build_term_doc_matrix (c : Corpus α) : Corpus α :=
  { c with term_doc_matrix :=
      mkMat c.number_of_documents c.vocabulary_size fun i j =>
        ((c.documents.getD i []).count (c.vocabulary.getD j "") : ℚ) }

/-- `Corpus.initialize_uniformly`: all-ones tables of shapes
`(number_of_documents, K)` and `(K, len(vocabulary))`, each normalized. -/
def Corpus.init_uniformly (c : Corpus α) (number_of_topics : ℕ) : Outcome (Corpus α) :=
  Outcome.bind (normalize (mkMat c.number_of_documents number_of_topics fun _ _ => 1)) fun dtp =>
  Outcome.bind (normalize (mkMat number_of_topics c.vocabulary.length fun _ _ => 1)) fun twp =>
  .ok { c with document_topic_prob := dtp, topic_word_prob := twp }

/-- `Corpus.initialize_randomly`: like the uniform variant but the entries are
the draws `r1 i j`, `r2 i j` of `np.random.random_sample`, supplied as oracles. -/
def Corpus.init_randomly (c : Corpus α) (number_of_topics : ℕ) (r1 r2 : ℕ → ℕ → ℚ) :
    Outcome (Corpus α) :=
  Outcome.bind (normalize (mkMat c.number_of_documents number_of_topics r1)) fun dtp =>
  Outcome.bind (normalize (mkMat number_of_topics c.vocabulary.length r2)) fun twp =>
  .ok { c with document_topic_prob := dtp, topic_word_prob := twp }

/-- `Corpus.initialize`: dispatch on the `random` flag. -/
def Corpus.init_tables (c : Corpus α) (number_of_topics : ℕ) (random : Bool)
    (r1 r2 : ℕ → ℕ → ℚ) : Outcome (Corpus α) :=
  if random then c.init_randomly number_of_topics r1 r2
  else c.init_uniformly number_of_topics

/-- the unnormalized topic mass `s = sum(document_topic_prob[i, :] * topic_word_prob[:, j])`
of the E-step; the number of topics is `topic_word_prob.shape[0]`. -/
def Corpus.estepS (c : Corpus α) (i j : ℕ) : ℚ :=
  ((List.range c.topic_word_prob.length).map fun k =>
    mget c.document_topic_prob i k * mget c.topic_word_prob k j).sum

/-- every `(i, j)` pair the E-step visits has nonzero topic mass (the
complement of the condition under which it runs `exit(0)`). -/
def Corpus.noDegenerate (c : Corpus α) : Prop :=
  ∀ i ∈ List.range c.number_of_documents, ∀ j ∈ List.range c.vocabulary_size,
    c.estepS i j ≠ 0

instance (c : Corpus α) : Decidable c.noDegenerate := by
  unfold Corpus.noDegenerate; infer_instance

/-- `Corpus.expectation_step`: if any `(i, j)` has zero topic mass the process
exits with code `0` (`exit(0)`); otherwise `topic_prob[i, k, j]` becomes the
normalized posterior.  The `np.ones` allocation is fully overwritten. -/
def Corpus.expectation_step (c : Corpus α) : Outcome (Corpus α) :=
  if c.noDegenerate then
    let Z : Mat3 :=
      mkMat3 c.number_of_documents c.topic_word_prob.length c.vocabulary_size
        (fun i k j =>
          mget c.document_topic_prob i k * mget c.topic_word_prob k j / c.estepS i j)
    .ok { c with topic_prob := Z }
  else .exited 0

/-- the M-step accumulator for `topic_word_prob[t][w]`:
`Σ_d term_doc_matrix[d][w] * topic_prob[d][t][w]`. -/
def Corpus.phiAccum (c : Corpus α) (t w : ℕ) : ℚ :=
  ((List.range c.number_of_documents).map fun d =>
    mget c.term_doc_matrix d w * tget c.topic_prob d t w).sum

/-- the M-step accumulator for `document_topic_prob[d][t]`:
`Σ_w term_doc_matrix[d][w] * topic_prob[d][t][w]`. -/
def Corpus.thetaAccum (c : Corpus α) (d t : ℕ) : ℚ :=
  ((List.range c.vocabulary_size).map fun w =>
    mget c.term_doc_matrix d w * tget c.topic_prob d t w).sum

/-- `Corpus.maximization_step`: write the `phiAccum` values into the stored
`topic_word_prob` and normalize it, then (on the state already holding the new
`topic_word_prob`) write the `thetaAccum` values into the stored
`document_topic_prob` and normalize it.  A `normalize` exception propagates. -/
def Corpus.maximization_step (c : Corpus α) (number_of_topics : ℕ) : Outcome (Corpus α) :=
  Outcome.bind (normalize (overwrite c.topic_word_prob number_of_topics c.vocabulary_size
      (fun t w => c.phiAccum t w))) fun twp =>
  let c1 : Corpus α := { c with topic_word_prob := twp }
  Outcome.bind (normalize (overwrite c1.document_topic_prob c1.number_of_documents
      number_of_topics (fun d t => c1.thetaAccum d t))) fun dtp =>
  .ok { c1 with document_topic_prob := dtp }

/-- the likelihood mixture `Σ_k document_topic_prob[i][k] * topic_word_prob[k][j]`
(summed over `k < number_of_topics`, the argument of `calculate_likelihood`). -/
def Corpus.lmix (c : Corpus α) (number_of_topics i j : ℕ) : ℚ :=
  ((List.range number_of_topics).map fun k =>
    mget c.document_topic_prob i k * mget c.topic_word_prob k j).sum

/-- every mixture the likelihood computation feeds to `math.log` is positive
(`math.log(x, 2)` raises `ValueError: math domain error` otherwise). -/
def Corpus.logDefined (c : Corpus α) (number_of_topics : ℕ) : Prop :=
  ∀ i ∈ List.range c.number_of_documents, ∀ j ∈ List.range c.vocabulary_size,
    0 < c.lmix number_of_topics i j

instance (c : Corpus α) (number_of_topics : ℕ) :
    Decidable (c.logDefined number_of_topics) := by
  unfold Corpus.logDefined; infer_instance

/-- the scalar `currLog` accumulated by `calculate_likelihood`. -/
def Corpus.currLog (lg : ℚ → α) (c : Corpus α) (number_of_topics : ℕ) : α :=
  ((List.range c.number_of_documents).map fun i =>
    ((List.range c.vocabulary_size).map fun j =>
      ((mget c.term_doc_matrix i j : ℚ) : α) * lg (c.lmix number_of_topics i j)).sum).sum

/-- `Corpus.calculate_likelihood`: accumulate
`term_doc_matrix[i][j] * log2(mix)` over all `(i, j)` and append the total to
`likelihoods`.  The logarithm itself is the parameter `lg`. -/
def Corpus.calculate_likelihood (lg : ℚ → α) (c : Corpus α) (number_of_topics : ℕ) :
    Outcome (Corpus α) :=
  if c.logDefined number_of_topics then
    .ok { c with likelihoods := c.likelihoods ++ [c.currLog lg number_of_topics] }
  else .error "math domain error"

/-- one iteration of the `plsa` loop body: E-step, then M-step, then
likelihood, in that order. -/
def Corpus.emBody (lg : ℚ → α) (number_of_topics : ℕ) (c : Corpus α) : Outcome (Corpus α) :=
  Outcome.bind c.expectation_step fun c =>
  Outcome.bind (c.maximization_step number_of_topics) fun c =>
  c.calculate_likelihood lg number_of_topics

/-- the `for iteration in range(max_iter)` loop of `Corpus.plsa`: `fuel` is the
number of remaining iterations and `iteration` the current zero-based index;
after each body, if `iteration >= 1` and
`|likelihoods[iteration] - likelihoods[iteration-1]| < epsilon`, break. -/
def Corpus.emLoop (lg : ℚ → α) (number_of_topics : ℕ) (epsilon : α) :
    ℕ → ℕ → Corpus α → Outcome (Corpus α)
  | 0, _, c => .ok c
  | fuel + 1, iteration, c =>
    Outcome.bind (Corpus.emBody lg number_of_topics c) fun c =>
      if 1 ≤ iteration ∧
          |c.likelihoods.getD iteration 0 - c.likelihoods.getD (iteration - 1) 0| < epsilon then
        .ok c
      else Corpus.emLoop lg number_of_topics epsilon fuel (iteration + 1) c

/-- `Corpus.plsa(number_of_topics, max_iter, epsilon)`: build the term-document
matrix, zero the posterior tensor, initialize the tables (with `random=True`),
then run the EM loop. -/
def Corpus.plsa (lg : ℚ → α) (c : Corpus α) (number_of_topics max_iter : ℕ) (epsilon : α)
    (r1 r2 : ℕ → ℕ → ℚ) : Outcome (Corpus α) :=
  let c1 := c.build_term_doc_matrix
  let Z0 : Mat3 := mkMat3 c1.number_of_documents number_of_topics c1.vocabulary_size
    (fun _ _ _ => 0)
  let c2 : Corpus α := { c1 with topic_prob := Z0 }
  Outcome.bind (c2.init_tables number_of_topics true r1 r2) fun c3 =>
    Corpus.emLoop lg number_of_topics epsilon max_iter 0 c3

/-! ### Shape predicates -/

/-- `A` is an `m × n` matrix. -/
def matShape (A : Mat) (m n : ℕ) : Prop :=
  A.length = m ∧ ∀ row ∈ A, row.length = n

instance (A : Mat) (m n : ℕ) : Decidable (matShape A m n) := by
  unfold matShape; infer_instance

/-! ### List and matrix access lemmas -/

theorem getD_map_range {β : Type} (f : ℕ → β) (n i : ℕ) (d : β) :
    ((List.range n).map f).getD i d = if i < n then f i else d := by
  simp [List.getD_eq_getElem?_getD, List.getElem?_map]
  split <;> simp_all [List.getElem?_range, List.getElem?_eq_none, List.length_range]

theorem sum_map_range {M : Type} [AddCommMonoid M] (f : ℕ → M) (n : ℕ) :
    ((List.range n).map f).sum = ∑ i in Finset.range n, f i := by
  induction n with
  | zero => simp
  | succ n ih =>
      rw [List.range_succ, List.map_append, List.sum_append, Finset.sum_range_succ, ih]
      simp

theorem mkMat_length (m n : ℕ) (f : ℕ → ℕ → ℚ) : (mkMat m n f).length = m := by
  simp [mkMat]

theorem mkMat_getD (m n : ℕ) (f : ℕ → ℕ → ℚ) (i : ℕ) :
    (mkMat m n f).getD i [] = if i < m then (List.range n).map (f i) else [] := by
  unfold mkMat
  exact getD_map_range (fun i => (List.range n).map fun j => f i j) m i []

theorem mget_mkMat (m n : ℕ) (f : ℕ → ℕ → ℚ) (i j : ℕ) :
    mget (mkMat m n f) i j = if i < m ∧ j < n then f i j else 0 := by
  unfold mget
  rw [mkMat_getD]
  by_cases hi : i < m
  · simp only [hi, if_true, getD_map_range, true_and]
  · simp [hi]

theorem mkMat_shape (m n : ℕ) (f : ℕ → ℕ → ℚ) : matShape (mkMat m n f) m n := by
  constructor
  · exact mkMat_length m n f
  · intro row hrow
    simp only [mkMat, List.mem_map] at hrow
    obtain ⟨i, _, rfl⟩ := hrow
    simp

theorem mkMat3_getD (a b c : ℕ) (f : ℕ → ℕ → ℕ → ℚ) (d : ℕ) :
    (mkMat3 a b c f).getD d [] =
      if d < a then (List.range b).map (fun k => (List.range c).map (f d k)) else [] := by
  unfold mkMat3
  exact getD_map_range (fun d => (List.range b).map fun k => (List.range c).map fun w => f d k w)
    a d []

theorem tget_mkMat3 (a b c : ℕ) (f : ℕ → ℕ → ℕ → ℚ) (d k w : ℕ) :
    tget (mkMat3 a b c f) d k w = if d < a ∧ k < b ∧ w < c then f d k w else 0 := by
  unfold tget
  rw [mkMat3_getD]
  by_cases hd : d < a
  · simp only [hd, if_true, getD_map_range, true_and]
    by_cases hk : k < b
    · simp only [hk, if_true, getD_map_range, true_and]
    · simp [hk]
  · simp [hd]

theorem overwrite_full (A : Mat) (m n : ℕ) (f : ℕ → ℕ → ℚ) (h : matShape A m n) :
    overwrite A m n f = mkMat m n f := by
  obtain ⟨hlen, hrow⟩ := h
  unfold overwrite mkMat
  rw [hlen]
  apply List.map_congr_left
  intro i hi
  rw [List.mem_range] at hi
  have hia : i < A.length := hlen ▸ hi
  have hgd : A.getD i [] = A[i] := by
    rw [List.getD_eq_getElem?_getD, List.getElem?_eq_getElem hia]
    rfl
  have hrl : (A.getD i []).length = n := by
    rw [hgd]
    exact hrow A[i] (List.mem_iff_getElem.mpr ⟨i, hia, rfl⟩)
  rw [hrl]
  apply List.map_congr_left
  intro j hj
  rw [List.mem_range] at hj
  simp [hi, hj]

/-! ### Lemmas about `normalize` -/

theorem sum_map_div (l : List ℚ) (s : ℚ) : (l.map fun x => x / s).sum = l.sum / s := by
  induction l with
  | nil => simp
  | cons a t ih => simp [ih, add_div]

theorem getD_map_div (l : List ℚ) (s : ℚ) (j : ℕ) :
    (l.map fun x => x / s).getD j 0 = l.getD j 0 / s := by
  by_cases hj : j < l.length
  · rw [List.getD_eq_getElem?_getD, List.getElem?_map, List.getElem?_eq_getElem hj,
      List.getD_eq_getElem?_getD, List.getElem?_eq_getElem hj]
    rfl
  · rw [List.getD_eq_getElem?_getD, List.getD_eq_getElem?_getD,
      List.getElem?_eq_none (by simpa using Nat.le_of_not_lt hj),
      List.getElem?_eq_none (Nat.le_of_not_lt hj)]
    simp

theorem getD_map_rows {g : List ℚ → List ℚ} (hg : g [] = []) (A : Mat) (i : ℕ) :
    (A.map g).getD i [] = g (A.getD i []) := by
  by_cases hi : i < A.length
  · rw [List.getD_eq_getElem?_getD, List.getElem?_map, List.getElem?_eq_getElem hi,
      List.getD_eq_getElem?_getD, List.getElem?_eq_getElem hi]
    rfl
  · rw [List.getD_eq_getElem?_getD, List.getD_eq_getElem?_getD,
      List.getElem?_eq_none (by simpa using Nat.le_of_not_lt hi),
      List.getElem?_eq_none (Nat.le_of_not_lt hi)]
    simp [hg]

theorem noZeroRows_iff (A : Mat) : noZeroRows A ↔ ∀ row ∈ A, row.sum ≠ 0 := by
  simp [noZeroRows]

theorem normalize_ok (A : Mat) (h : ∀ row ∈ A, row.sum ≠ 0) :
    normalize A = .ok (A.map fun row => row.map fun x => x / row.sum) := by
  rw [normalize, if_pos ((noZeroRows_iff A).mpr h)]

theorem normalize_err (A : Mat) (h : ¬ ∀ row ∈ A, row.sum ≠ 0) :
    normalize A = .error normMsg := by
  rw [normalize, if_neg (fun hz => h ((noZeroRows_iff A).mp hz))]

theorem normalize_cases (A : Mat) :
    (∃ B, normalize A = .ok B) ∨ normalize A = .error normMsg := by
  unfold normalize
  split
  · exact Or.inl ⟨_, rfl⟩
  · exact Or.inr rfl

/-- row sums of `mkMat m n f`, as seen by `normalize`. -/
def rowSumF (n : ℕ) (f : ℕ → ℕ → ℚ) (i : ℕ) : ℚ := ((List.range n).map (f i)).sum

theorem normalize_mkMat (m n : ℕ) (f : ℕ → ℕ → ℚ) (h : ∀ i < m, rowSumF n f i ≠ 0) :
    normalize (mkMat m n f) = .ok (mkMat m n fun i j => f i j / rowSumF n f i) := by
  rw [normalize_ok]
  · congr 1
    unfold mkMat
    rw [List.map_map]
    apply List.map_congr_left
    intro i hi
    rw [List.mem_range] at hi
    simp only [Function.comp_apply, List.map_map]
    rfl
  · intro row hrow
    simp only [mkMat, List.mem_map, List.mem_range] at hrow
    obtain ⟨i, hi, rfl⟩ := hrow
    exact h i hi

theorem mkMat_congr (m n : ℕ) (f g : ℕ → ℕ → ℚ) (h : ∀ i < m, ∀ j < n, f i j = g i j) :
    mkMat m n f = mkMat m n g := by
  unfold mkMat
  apply List.map_congr_left
  intro i hi
  rw [List.mem_range] at hi
  apply List.map_congr_left
  intro j hj
  rw [List.mem_range] at hj
  exact h i hi j hj

theorem mkMat3_congr (a b c : ℕ) (f g : ℕ → ℕ → ℕ → ℚ)
    (h : ∀ d < a, ∀ k < b, ∀ w < c, f d k w = g d k w) :
    mkMat3 a b c f = mkMat3 a b c g := by
  unfold mkMat3
  apply List.map_congr_left
  intro d hd
  rw [List.mem_range] at hd
  apply List.map_congr_left
  intro k hk
  rw [List.mem_range] at hk
  apply List.map_congr_left
  intro w hw
  rw [List.mem_range] at hw
  exact h d hd k hk w hw

theorem rowSumF_const (n : ℕ) (q : ℚ) (i : ℕ) : rowSumF n (fun _ _ => q) i = n * q := by
  unfold rowSumF
  rw [sum_map_range]
  rw [Finset.sum_const, Finset.card_range, nsmul_eq_mul]

theorem normalize_ones (m n : ℕ) (hn : 1 ≤ n) :
    normalize (mkMat m n fun _ _ => 1) = .ok (mkMat m n fun _ _ => (n : ℚ)⁻¹) := by
  have hn' : (n : ℚ) ≠ 0 := Nat.cast_ne_zero.mpr (by omega)
  have hs : ∀ i < m, rowSumF n (fun _ _ => (1 : ℚ)) i ≠ 0 := by
    intro i _
    rw [rowSumF_const]
    simpa using hn'
  rw [normalize_mkMat m n _ hs]
  congr 1
  apply mkMat_congr
  intro i hi j hj
  rw [rowSumF_const, mul_one, one_div]

theorem normalize_ok_shape (A B : Mat) (m n : ℕ) (h : normalize A = .ok B)
    (hs : matShape A m n) : matShape B m n := by
  unfold normalize at h
  split at h
  · cases h
    obtain ⟨hlen, hrow⟩ := hs
    refine ⟨by simpa using hlen, ?_⟩
    intro row hrow'
    simp only [List.mem_map] at hrow'
    obtain ⟨r, hr, rfl⟩ := hrow'
    simpa using hrow r hr
  · cases h

/-! ### Outcome helpers -/

def Outcome.isOk {β : Type} : Outcome β → Bool
  | .ok _ => true
  | .error _ => false
  | .exited _ => false

theorem Outcome.isOk_iff {β : Type} (o : Outcome β) : o.isOk = true ↔ ∃ b, o = .ok b := by
  cases o <;> simp [Outcome.isOk]

theorem Outcome.bind_ok {β : Type} (o : Outcome β) : o.bind .ok = o := by
  cases o <;> rfl

theorem Outcome.ok_bind {β γ : Type} (b : β) (f : β → Outcome γ) :
    (Outcome.ok b).bind f = f b := rfl

/-! ### Shared example corpora (used by witnesses and counterexamples) -/

/-- stand-in log function for concrete rational-valued runs. -/
def lgZero : ℚ → ℚ := fun _ => 0

/-- identity as a stand-in log function (keeps distinct mixtures distinct). -/
def lgId : ℚ → ℚ := fun q => q

/-- the all-ones random oracle (`random_sample` values). -/
def onesF : ℕ → ℕ → ℚ := fun _ _ => 1

/-- the spec's end-to-end example corpus: `["the cat sat", "the dog sat"]`. -/
def cEx : Corpus ℚ :=
  ((Corpus.init ℚ "data/test.txt").build_corpus
    [["the", "cat", "sat"], ["the", "dog", "sat"]]).build_vocabulary

/-- an unbalanced one-document corpus: `["a a b"]`. -/
def cAsym : Corpus ℚ :=
  ((Corpus.init ℚ "data/test.txt").build_corpus [["a", "a", "b"]]).build_vocabulary

/-- a corpus state in which the single topic gives the single word probability
zero, so the E-step's mass `s` is `0`. -/
def cDeg : Corpus ℚ :=
  { documents := [["a"]], vocabulary := ["a"], likelihoods := [],
    documents_path := "p", term_doc_matrix := [[1]], document_topic_prob := [[1]],
    topic_word_prob := [[0]], topic_prob := [], number_of_documents := 1,
    vocabulary_size := 1 }

/-! ### Claim C7 — row normalization contract -/

/-- C7: given a matrix of non-negative rationals in which no row sums to zero,
`normalize` returns a matrix of the same shape in which every row sums to 1,
each element being the input element divided by its row sum; if some row sums
to exactly zero it raises the row-sums-to-zero error (the spec's
`InvalidDistribution`) instead of producing NaN/Inf. -/
theorem normalize_contract (A : Mat) (hnn : ∀ row ∈ A, ∀ x ∈ row, 0 ≤ x) :
    ((∀ row ∈ A, row.sum ≠ 0) →
      ∃ B, normalize A = .ok B ∧ B.length = A.length ∧
        (∀ i, (B.getD i []).length = (A.getD i []).length) ∧
        (∀ row ∈ B, row.sum = 1) ∧
        (∀ i j, mget B i j = mget A i j / (A.getD i []).sum)) ∧
    ((∃ row ∈ A, row.sum = 0) → normalize A = .error normMsg) := by
  constructor
  · intro h
    refine ⟨A.map fun row => row.map fun x => x / row.sum, normalize_ok A h, by simp, ?_, ?_, ?_⟩
    · intro i
      rw [getD_map_rows (by simp) A i]
      simp
    · intro row hrow
      simp only [List.mem_map] at hrow
      obtain ⟨r, hr, rfl⟩ := hrow
      rw [sum_map_div]
      exact div_self (h r hr)
    · intro i j
      unfold mget
      rw [getD_map_rows (by simp) A i, getD_map_div]
  · rintro ⟨row, hrow, hsum⟩
    apply normalize_err
    intro h
    exact h row hrow hsum

attribute [local semireducible] Rat.add Rat.mul Rat.inv Rat.sub in
/-- witness for C7 at the concrete matrix `[[1, 3], [2, 2]]`. -/
theorem normalize_contract_witness :
    (∀ row ∈ [[(1 : ℚ), 3], [2, 2]], ∀ x ∈ row, 0 ≤ x) ∧
    (∃ B, normalize [[(1 : ℚ), 3], [2, 2]] = .ok B ∧ (∀ row ∈ B, row.sum = 1)) := by
  have h := normalize_contract [[(1 : ℚ), 3], [2, 2]] (by decide)
  refine ⟨by decide, ?_⟩
  obtain ⟨B, hB, _, _, hs, _⟩ := h.1 (by decide)
  exact ⟨B, hB, hs⟩

/-! ### Claim C1 — behaviour on a degenerate E-step -/

attribute [local semireducible] Rat.add Rat.mul Rat.inv Rat.sub in
/-- counterexample to C1: at the concrete state `cDeg` the topic mass
`s = Σ_k Θ[0][k]·Φ[k][0]` is `0`, and the E-step terminates the host process
(`exit(0)`); it does not signal a `DegenerateEStep` (or any) error to the
caller, so the claim is false as stated. -/
theorem estep_degenerate_cx :
    Corpus.estepS cDeg 0 0 = 0 ∧
    Corpus.expectation_step cDeg = .exited 0 ∧
    ∀ e, Corpus.expectation_step cDeg ≠ Outcome.error e := by
  have h : Corpus.expectation_step cDeg = .exited 0 := by decide
  refine ⟨by decide, h, ?_⟩
  intro e he
  rw [h] at he
  exact Outcome.noConfusion he

/-- C1 (amended): if the unnormalized topic mass `s` is `0` for some in-range
document/term pair, the E-step stops the run by terminating the host process
via `exit(0)` — it never divides by zero (the posterior is only computed when
every mass is nonzero), but it also never surfaces an error to the caller. -/
theorem estep_degenerate_exits (c : Corpus α)
    (h : ∃ i, i < c.number_of_documents ∧ ∃ j, j < c.vocabulary_size ∧ c.estepS i j = 0) :
    c.expectation_step = .exited 0 := by
  have hnd : ¬ c.noDegenerate := by
    intro hall
    obtain ⟨i, hi, j, hj, hz⟩ := h
    exact hall i (List.mem_range.mpr hi) j (List.mem_range.mpr hj) hz
  unfold Corpus.expectation_step
  rw [if_neg hnd]

attribute [local semireducible] Rat.add Rat.mul Rat.inv Rat.sub in
/-- witness for C1 (amended) at the concrete state `cDeg`. -/
theorem estep_degenerate_exits_witness :
    (∃ i, i < cDeg.number_of_documents ∧ ∃ j, j < cDeg.vocabulary_size ∧
      Corpus.estepS cDeg i j = 0) ∧
    Corpus.expectation_step cDeg = .exited 0 :=
  ⟨⟨0, by decide, 0, by decide, by decide⟩,
    estep_degenerate_exits cDeg ⟨0, by decide, 0, by decide, by decide⟩⟩

/-! ### Claim C5 — E-step posterior -/

/-- a one-document, one-word, one-topic corpus state with unit tables. -/
def cOne : Corpus ℚ :=
  { documents := [["a"]], vocabulary := ["a"], likelihoods := [],
    documents_path := "p", term_doc_matrix := [[1]], document_topic_prob := [[1]],
    topic_word_prob := [[1]], topic_prob := [], number_of_documents := 1,
    vocabulary_size := 1 }

/-- the E-step output on `cOne`. -/
def cOneE : Corpus ℚ := { cOne with topic_prob := [[[1]]] }

/-- C5: whenever the E-step returns normally, every in-range `(d, w)` pair had
nonzero mass `s`, the posterior entry is `Z[d][k][w] = Θ[d][k]·Φ[k][w] / s`
for every topic `k`, and consequently `Σ_k Z[d][k][w] = 1`. -/
theorem estep_posterior (c c' : Corpus α) (h : c.expectation_step = .ok c')
    (d w : ℕ) (hd : d < c.number_of_documents) (hw : w < c.vocabulary_size) :
    c.estepS d w ≠ 0 ∧
    (∀ k < c.topic_word_prob.length,
      tget c'.topic_prob d k w =
        mget c.document_topic_prob d k * mget c.topic_word_prob k w / c.estepS d w) ∧
    ∑ k in Finset.range c.topic_word_prob.length, tget c'.topic_prob d k w = 1 := by
  unfold Corpus.expectation_step at h
  by_cases hnd : c.noDegenerate
  · rw [if_pos hnd] at h
    have hc' : c'.topic_prob =
        mkMat3 c.number_of_documents c.topic_word_prob.length c.vocabulary_size
          (fun i k j =>
            mget c.document_topic_prob i k * mget c.topic_word_prob k j / c.estepS i j) := by
      injection h with h'
      rw [← h']
    have hs : c.estepS d w ≠ 0 :=
      hnd d (List.mem_range.mpr hd) w (List.mem_range.mpr hw)
    have hentry : ∀ k < c.topic_word_prob.length,
        tget c'.topic_prob d k w =
          mget c.document_topic_prob d k * mget c.topic_word_prob k w / c.estepS d w := by
      intro k hk
      rw [hc', tget_mkMat3]
      simp [hd, hk, hw]
    refine ⟨hs, hentry, ?_⟩
    have hsum : c.estepS d w = ∑ k in Finset.range c.topic_word_prob.length,
        mget c.document_topic_prob d k * mget c.topic_word_prob k w := by
      unfold Corpus.estepS
      rw [sum_map_range]
    calc ∑ k in Finset.range c.topic_word_prob.length, tget c'.topic_prob d k w
        = ∑ k in Finset.range c.topic_word_prob.length,
            mget c.document_topic_prob d k * mget c.topic_word_prob k w / c.estepS d w := by
          apply Finset.sum_congr rfl
          intro k hk
          exact hentry k (Finset.mem_range.mp hk)
      _ = (∑ k in Finset.range c.topic_word_prob.length,
            mget c.document_topic_prob d k * mget c.topic_word_prob k w) / c.estepS d w := by
          rw [Finset.sum_div]
      _ = 1 := by rw [← hsum]; exact div_self hs
  · rw [if_neg hnd] at h
    exact Outcome.noConfusion h

attribute [local semireducible] Rat.add Rat.mul Rat.inv Rat.sub in
/-- witness for C5 at the concrete state `cOne`. -/
theorem estep_posterior_witness :
    Corpus.expectation_step cOne = .ok cOneE ∧
    0 < cOne.number_of_documents ∧ 0 < cOne.vocabulary_size ∧
    (Corpus.estepS cOne 0 0 ≠ 0 ∧
      (∀ k < cOne.topic_word_prob.length,
        tget cOneE.topic_prob 0 k 0 =
          mget cOne.document_topic_prob 0 k * mget cOne.topic_word_prob k 0 /
            Corpus.estepS cOne 0 0) ∧
      ∑ k in Finset.range cOne.topic_word_prob.length, tget cOneE.topic_prob 0 k 0 = 1) :=
  ⟨by decide, by decide, by decide,
    estep_posterior cOne cOneE (by decide) 0 0 (by decide) (by decide)⟩

/-! ### Claim C4 — M-step structure -/

/-- second definition of the M-step, following the spec's words (§4.5):
Step A accumulates `Φ[k][w] = Σ_d C[d][w]·Z[d][k][w]` into a fresh `K × V`
matrix and row-normalizes it; Step B then accumulates
`Θ[d][k] = Σ_w C[d][w]·Z[d][k][w]` into a fresh `D × K` matrix and
row-normalizes it.  Both steps read the same snapshot `c.topic_prob` of `Z`
and Step B does not read Step A's output. -/
def Corpus.mstep_spec (c : Corpus α) (number_of_topics : ℕ) : Outcome (Corpus α) :=
  Outcome.bind (normalize (mkMat number_of_topics c.vocabulary_size fun k w =>
    ∑ d in Finset.range c.number_of_documents,
      mget c.term_doc_matrix d w * tget c.topic_prob d k w)) fun twp =>
  Outcome.bind (normalize (mkMat c.number_of_documents number_of_topics fun d k =>
    ∑ w in Finset.range c.vocabulary_size,
      mget c.term_doc_matrix d w * tget c.topic_prob d k w)) fun dtp =>
  .ok { c with topic_word_prob := twp, document_topic_prob := dtp }

/-- C4: on every well-shaped state the implemented M-step coincides with the
spec's description: Step A (new `Φ[k][w] = Σ_d C[d][w]·Z[d][k][w]`, then row
normalization over the `K` rows) is computed first, Step B (new
`Θ[d][k] = Σ_w C[d][w]·Z[d][k][w]`, then row normalization) afterwards, both
from the same `Z` snapshot of the latest E-step, and Step B's accumulator
never reads the `Φ` produced by Step A. -/
theorem mstep_refines_spec (c : Corpus α) (K : ℕ)
    (hPhi : matShape c.topic_word_prob K c.vocabulary_size)
    (hTheta : matShape c.document_topic_prob c.number_of_documents K) :
    c.maximization_step K = c.mstep_spec K := by
  unfold Corpus.maximization_step Corpus.mstep_spec
  rw [overwrite_full _ _ _ _ hPhi]
  have h1 : mkMat K c.vocabulary_size (fun t w => c.phiAccum t w) =
      mkMat K c.vocabulary_size (fun k w =>
        ∑ d in Finset.range c.number_of_documents,
          mget c.term_doc_matrix d w * tget c.topic_prob d k w) := by
    apply mkMat_congr
    intro i _ j _
    unfold Corpus.phiAccum
    rw [sum_map_range]
  rw [h1]
  congr 1
  funext twp
  show Outcome.bind (normalize (overwrite c.document_topic_prob c.number_of_documents K
      (fun d t => Corpus.thetaAccum { c with topic_word_prob := twp } d t))) _ = _
  rw [overwrite_full _ _ _ _ hTheta]
  have h2 : mkMat c.number_of_documents K
      (fun d t => Corpus.thetaAccum { c with topic_word_prob := twp } d t) =
      mkMat c.number_of_documents K (fun d k =>
        ∑ w in Finset.range c.vocabulary_size,
          mget c.term_doc_matrix d w * tget c.topic_prob d k w) := by
    apply mkMat_congr
    intro i _ j _
    show Corpus.thetaAccum { c with topic_word_prob := twp } i j = _
    unfold Corpus.thetaAccum
    rw [sum_map_range]
  rw [h2]

attribute [local semireducible] Rat.add Rat.mul Rat.inv Rat.sub in
/-- witness for C4 at the concrete state `cOneE`. -/
theorem mstep_refines_spec_witness :
    matShape cOneE.topic_word_prob 1 cOneE.vocabulary_size ∧
    matShape cOneE.document_topic_prob cOneE.number_of_documents 1 ∧
    Corpus.maximization_step cOneE 1 = Corpus.mstep_spec cOneE 1 :=
  ⟨by decide, by decide, mstep_refines_spec cOneE 1 (by decide) (by decide)⟩

/-! ### Claim C8 — likelihood computation -/

/-- the spec's likelihood scalar (§4.6): `Σ_{d,w} C[d][w] · lg(Σ_k Θ[d][k]·Φ[k][w])`. -/
def Corpus.likelihood_spec (lg : ℚ → α) (c : Corpus α) (number_of_topics : ℕ) : α :=
  ∑ d in Finset.range c.number_of_documents, ∑ w in Finset.range c.vocabulary_size,
    ((mget c.term_doc_matrix d w : ℚ) : α) * lg (c.lmix number_of_topics d w)

theorem currLog_eq_spec (lg : ℚ → α) (c : Corpus α) (K : ℕ) :
    c.currLog lg K = c.likelihood_spec lg K := by
  unfold Corpus.currLog Corpus.likelihood_spec
  rw [sum_map_range]
  apply Finset.sum_congr rfl
  intro i _
  rw [sum_map_range]

/-- C8: with every mixture positive, the likelihood tracker computes exactly
`Σ_{d,w} C[d][w] · log2(Σ_k Θ[d][k]·Φ[k][w])` — logarithm base 2, here the
genuine `Real.logb 2` — appends this single scalar to the likelihood trace,
and the trace grows by exactly one element with its previous entries intact
(never truncated). -/
theorem likelihood_log2 (c : Corpus ℝ) (K : ℕ) (h : c.logDefined K) :
    c.calculate_likelihood (fun q => Real.logb 2 (q : ℝ)) K =
      .ok { c with likelihoods :=
        c.likelihoods ++ [c.likelihood_spec (fun q => Real.logb 2 (q : ℝ)) K] } ∧
    ∀ c', c.calculate_likelihood (fun q => Real.logb 2 (q : ℝ)) K = .ok c' →
      c'.likelihoods.length = c.likelihoods.length + 1 ∧
      c'.likelihoods.take c.likelihoods.length = c.likelihoods := by
  have hmain : c.calculate_likelihood (fun q => Real.logb 2 (q : ℝ)) K =
      .ok { c with likelihoods :=
        c.likelihoods ++ [c.likelihood_spec (fun q => Real.logb 2 (q : ℝ)) K] } := by
    unfold Corpus.calculate_likelihood
    rw [if_pos h, currLog_eq_spec]
  refine ⟨hmain, ?_⟩
  intro c' hc'
  rw [hmain] at hc'
  injection hc' with h'
  rw [← h']
  constructor
  · simp
  · simp

/-- the state `cOne` over real-valued likelihoods. -/
def cOneR : Corpus ℝ :=
  { documents := [["a"]], vocabulary := ["a"], likelihoods := [],
    documents_path := "p", term_doc_matrix := [[1]], document_topic_prob := [[1]],
    topic_word_prob := [[1]], topic_prob := [[[1]]], number_of_documents := 1,
    vocabulary_size := 1 }

attribute [local semireducible] Rat.add Rat.mul Rat.inv Rat.sub in
/-- witness for C8 at the concrete state `cOneR`. -/
theorem likelihood_log2_witness :
    cOneR.logDefined 1 ∧
    cOneR.calculate_likelihood (fun q => Real.logb 2 (q : ℝ)) 1 =
      .ok { cOneR with likelihoods :=
        cOneR.likelihoods ++ [cOneR.likelihood_spec (fun q => Real.logb 2 (q : ℝ)) 1] } :=
  ⟨by decide, (likelihood_log2 cOneR 1 (by decide)).1⟩

/-! ### Step dissection and preservation lemmas -/

theorem bind_eq_ok {β γ : Type} (o : Outcome β) (f : β → Outcome γ) (c : γ)
    (h : o.bind f = .ok c) : ∃ b, o = .ok b ∧ f b = .ok c := by
  cases o with
  | ok b => exact ⟨b, rfl, h⟩
  | error e => exact Outcome.noConfusion h
  | exited n => exact Outcome.noConfusion h

/-- the E-step changes only `topic_prob`. -/
theorem estep_ok_inv (c c' : Corpus α) (h : c.expectation_step = .ok c') :
    c'.term_doc_matrix = c.term_doc_matrix ∧
    c'.document_topic_prob = c.document_topic_prob ∧
    c'.topic_word_prob = c.topic_word_prob ∧
    c'.likelihoods = c.likelihoods ∧
    c'.number_of_documents = c.number_of_documents ∧
    c'.vocabulary_size = c.vocabulary_size ∧
    c'.vocabulary = c.vocabulary ∧
    c'.documents = c.documents := by
  unfold Corpus.expectation_step at h
  split at h
  · injection h with h'
    rw [← h']
    exact ⟨rfl, rfl, rfl, rfl, rfl, rfl, rfl, rfl⟩
  · exact Outcome.noConfusion h

/-- the M-step changes only the two probability tables. -/
theorem mstep_ok_inv (c c' : Corpus α) (K : ℕ) (h : c.maximization_step K = .ok c') :
    c'.term_doc_matrix = c.term_doc_matrix ∧
    c'.topic_prob = c.topic_prob ∧
    c'.likelihoods = c.likelihoods ∧
    c'.number_of_documents = c.number_of_documents ∧
    c'.vocabulary_size = c.vocabulary_size ∧
    c'.vocabulary = c.vocabulary ∧
    c'.documents = c.documents := by
  unfold Corpus.maximization_step at h
  obtain ⟨twp, htwp, h2⟩ := bind_eq_ok _ _ _ h
  obtain ⟨dtp, hdtp, h3⟩ := bind_eq_ok _ _ _ h2
  injection h3 with h'
  rw [← h']
  exact ⟨rfl, rfl, rfl, rfl, rfl, rfl, rfl⟩

/-- the likelihood step changes only `likelihoods`, appending one value. -/
theorem likelihood_ok_inv (lg : ℚ → α) (c c' : Corpus α) (K : ℕ)
    (h : c.calculate_likelihood lg K = .ok c') :
    c'.term_doc_matrix = c.term_doc_matrix ∧
    c'.topic_prob = c.topic_prob ∧
    c'.document_topic_prob = c.document_topic_prob ∧
    c'.topic_word_prob = c.topic_word_prob ∧
    c'.likelihoods = c.likelihoods ++ [c.currLog lg K] ∧
    c'.number_of_documents = c.number_of_documents ∧
    c'.vocabulary_size = c.vocabulary_size ∧
    c'.vocabulary = c.vocabulary ∧
    c'.documents = c.documents := by
  unfold Corpus.calculate_likelihood at h
  split at h
  · injection h with h'
    rw [← h']
    exact ⟨rfl, rfl, rfl, rfl, rfl, rfl, rfl, rfl, rfl⟩
  · exact Outcome.noConfusion h

/-- one EM iteration body keeps the term-document matrix, the dimensions, the
documents and the vocabulary, and appends exactly one likelihood value. -/
theorem emBody_ok_inv (lg : ℚ → α) (K : ℕ) (c c' : Corpus α)
    (h : Corpus.emBody lg K c = .ok c') :
    c'.term_doc_matrix = c.term_doc_matrix ∧
    c'.number_of_documents = c.number_of_documents ∧
    c'.vocabulary_size = c.vocabulary_size ∧
    c'.vocabulary = c.vocabulary ∧
    c'.documents = c.documents ∧
    ∃ x, c'.likelihoods = c.likelihoods ++ [x] := by
  unfold Corpus.emBody at h
  obtain ⟨c1, h1, h2⟩ := bind_eq_ok _ _ _ h
  obtain ⟨c2, h3, h4⟩ := bind_eq_ok _ _ _ h2
  obtain ⟨e1, _, _, el1, en1, ev1, evo1, ed1⟩ := estep_ok_inv c c1 h1
  obtain ⟨m1, _, ml1, mn1, mv1, mvo1, md1⟩ := mstep_ok_inv c1 c2 K h3
  obtain ⟨l1, _, _, _, ll1, ln1, lv1, lvo1, ld1⟩ := likelihood_ok_inv lg c2 c' K h4
  refine ⟨l1.trans (m1.trans e1), ln1.trans (mn1.trans en1), lv1.trans (mv1.trans ev1),
    lvo1.trans (mvo1.trans evo1), ld1.trans (md1.trans ed1), ?_⟩
  exact ⟨c2.currLog lg K, by rw [ll1, ml1, el1]⟩

/-- the EM loop preserves the term-document matrix. -/
theorem emLoop_preserves_tdm (lg : ℚ → α) (K : ℕ) (eps : α) :
    ∀ (fuel it : ℕ) (c c' : Corpus α),
      Corpus.emLoop lg K eps fuel it c = .ok c' → c'.term_doc_matrix = c.term_doc_matrix := by
  intro fuel
  induction fuel with
  | zero =>
      intro it c c' h
      unfold Corpus.emLoop at h
      injection h with h'
      rw [← h']
  | succ n ih =>
      intro it c c' h
      unfold Corpus.emLoop at h
      obtain ⟨b, hb, hf⟩ := bind_eq_ok _ _ _ h
      have hbody := (emBody_ok_inv lg K c b hb).1
      split at hf
      · injection hf with h'
        rw [← h', hbody]
      · exact (ih _ b c' hf).trans hbody

/-! ### Claim C9 — term-document matrix -/

/-- C9: the builder produces a `D × V` matrix whose entry `(d, w)` is the
number of occurrences of vocabulary term `w` in document `d`, and the matrix
is left untouched by the E-step, the M-step, the likelihood computation, and
the whole EM loop. -/
theorem term_doc_matrix_contract (lg : ℚ → α) (K : ℕ) :
    (∀ c : Corpus α, matShape c.build_term_doc_matrix.term_doc_matrix
      c.number_of_documents c.vocabulary_size) ∧
    (∀ (c : Corpus α) (d w : ℕ), d < c.number_of_documents → w < c.vocabulary_size →
      mget c.build_term_doc_matrix.term_doc_matrix d w =
        ((c.documents.getD d []).count (c.vocabulary.getD w "") : ℚ)) ∧
    (∀ c c' : Corpus α, c.expectation_step = .ok c' →
      c'.term_doc_matrix = c.term_doc_matrix) ∧
    (∀ c c' : Corpus α, c.maximization_step K = .ok c' →
      c'.term_doc_matrix = c.term_doc_matrix) ∧
    (∀ c c' : Corpus α, c.calculate_likelihood lg K = .ok c' →
      c'.term_doc_matrix = c.term_doc_matrix) ∧
    (∀ (eps : α) (fuel it : ℕ) (c c' : Corpus α),
      Corpus.emLoop lg K eps fuel it c = .ok c' →
      c'.term_doc_matrix = c.term_doc_matrix) := by
  refine ⟨?_, ?_, ?_, ?_, ?_, ?_⟩
  · intro c
    exact mkMat_shape _ _ _
  · intro c d w hd hw
    show mget (mkMat _ _ _) d w = _
    rw [mget_mkMat]
    simp [hd, hw]
  · intro c c' h
    exact (estep_ok_inv c c' h).1
  · intro c c' h
    exact (mstep_ok_inv c c' K h).1
  · intro c c' h
    exact (likelihood_ok_inv lg c c' K h).1
  · intro eps fuel it c c' h
    exact emLoop_preserves_tdm lg K eps fuel it c c' h

attribute [local semireducible] Rat.add Rat.mul Rat.inv Rat.sub in
/-- witness for C9: concrete matrix entry on the example corpus and concrete
preservation through an E-step. -/
theorem term_doc_matrix_contract_witness :
    mget cEx.build_term_doc_matrix.term_doc_matrix 0 1 =
      ((cEx.documents.getD 0 []).count (cEx.vocabulary.getD 1 "") : ℚ) ∧
    cOneE.term_doc_matrix = cOne.term_doc_matrix :=
  ⟨(term_doc_matrix_contract (α := ℚ) lgZero 1).2.1 cEx 0 1 (by decide) (by decide),
    (term_doc_matrix_contract (α := ℚ) lgZero 1).2.2.1 cOne cOneE (by decide)⟩

/-! ### Claim C3 — argument validation -/

/-- the initialization phase of `plsa` (everything before the EM loop): build
the term-document matrix, zero the posterior tensor, initialize the tables
with `random=True`. -/
def Corpus.plsaInit (c : Corpus α) (number_of_topics : ℕ) (r1 r2 : ℕ → ℕ → ℚ) :
    Outcome (Corpus α) :=
  let c1 := c.build_term_doc_matrix
  let Z0 : Mat3 := mkMat3 c1.number_of_documents number_of_topics c1.vocabulary_size
    (fun _ _ _ => 0)
  let c2 : Corpus α := { c1 with topic_prob := Z0 }
  c2.init_tables number_of_topics true r1 r2

theorem plsa_eq_init_loop (lg : ℚ → α) (c : Corpus α) (K max_iter : ℕ) (eps : α)
    (r1 r2 : ℕ → ℕ → ℚ) :
    Corpus.plsa lg c K max_iter eps r1 r2 =
      Outcome.bind (c.plsaInit K r1 r2) (Corpus.emLoop lg K eps max_iter 0) := rfl

attribute [local semireducible] Rat.add Rat.mul Rat.inv Rat.sub in
/-- counterexample to C3: calling `plsa` with the non-positive iteration
budget `max_iter = 0` does not fail fast with an `InvalidArgument` error —
the call builds the matrix, initializes the tables and returns successfully. -/
theorem plsa_no_validation_cx :
    Outcome.isOk (Corpus.plsa lgZero cEx 2 0 (1 : ℚ) onesF onesF) = true := by decide

/-- C3 (amended): `plsa` performs no argument validation: no `InvalidArgument`
error exists in the code.  With a non-positive iteration budget the loop body
never runs, yet the computation before the loop still happens — the call
returns exactly the result of the initialization phase (term-document matrix
built, posterior zeroed, tables initialized). -/
theorem plsa_zero_budget (lg : ℚ → α) (c : Corpus α) (K : ℕ) (eps : α)
    (r1 r2 : ℕ → ℕ → ℚ) :
    Corpus.plsa lg c K 0 eps r1 r2 = c.plsaInit K r1 r2 := by
  rw [plsa_eq_init_loop]
  cases h : c.plsaInit K r1 r2 with
  | ok b => rfl
  | error e => rfl
  | exited n => rfl

/-! ### Claim C6 — convergence test -/

/-- length of the likelihood trace of a successful run. -/
def traceLen : Outcome (Corpus ℚ) → Option ℕ
  | .ok c => some c.likelihoods.length
  | .error _ => none
  | .exited _ => none

attribute [local semireducible] Rat.add Rat.mul Rat.inv Rat.sub in
/-- counterexample to C6: with a huge `epsilon` (`10^6`) but `maxIterations = 1`
fitting terminates after exactly one iteration, not two — "regardless of
maxIterations" fails for budgets below 2. -/
theorem convergence_two_iters_cx :
    traceLen (Corpus.plsa lgZero cEx 1 1 (1000000 : ℚ) onesF onesF) = some 1 := by decide

/-- two successful iteration bodies whose likelihood difference beats
`epsilon` make the loop stop right after the second body. -/
theorem emLoop_two_iters (lg : ℚ → α) (K : ℕ) (eps : α) (c c1 c2 : Corpus α) (fuel : ℕ)
    (h1 : Corpus.emBody lg K c = .ok c1) (h2 : Corpus.emBody lg K c1 = .ok c2)
    (hlt : |c2.likelihoods.getD 1 0 - c2.likelihoods.getD 0 0| < eps) :
    Corpus.emLoop lg K eps (fuel + 2) 0 c = .ok c2 := by
  show Outcome.bind (Corpus.emBody lg K c) _ = _
  rw [h1, Outcome.ok_bind]
  rw [if_neg (fun hcon => absurd hcon.1 (by omega))]
  show Outcome.bind (Corpus.emBody lg K c1) _ = _
  rw [h2, Outcome.ok_bind]
  rw [if_pos ⟨le_refl 1, hlt⟩]

/-- C6 (amended): the convergence test is evaluated only from the second
completed iteration onward (zero-based `i ≥ 1`), compares only
`|likelihood[i] - likelihood[i-1]|` strictly against `epsilon` with no
lookahead, and stops the loop when the difference is strictly below
`epsilon`; with `epsilon` larger than the observed difference, fitting
terminates after exactly 2 iterations for any `maxIterations ≥ 2` (with
`maxIterations ≤ 1` the budget stops it earlier, so "regardless of
maxIterations" only holds from 2 up). -/
theorem convergence_test (lg : ℚ → α) (K : ℕ) (eps : α) :
    (∀ (c : Corpus α) (fuel : ℕ),
      Corpus.emLoop lg K eps (fuel + 1) 0 c =
        Outcome.bind (Corpus.emBody lg K c) (Corpus.emLoop lg K eps fuel 1)) ∧
    (∀ (c : Corpus α) (fuel i : ℕ), 1 ≤ i →
      Corpus.emLoop lg K eps (fuel + 1) i c =
        Outcome.bind (Corpus.emBody lg K c) (fun c' =>
          if |c'.likelihoods.getD i 0 - c'.likelihoods.getD (i - 1) 0| < eps then .ok c'
          else Corpus.emLoop lg K eps fuel (i + 1) c')) ∧
    (∀ (c c1 c2 : Corpus α) (fuel : ℕ),
      Corpus.emBody lg K c = .ok c1 → Corpus.emBody lg K c1 = .ok c2 →
      |c2.likelihoods.getD 1 0 - c2.likelihoods.getD 0 0| < eps →
      Corpus.emLoop lg K eps (fuel + 2) 0 c = .ok c2) ∧
    (∀ (c c0 c1 c2 : Corpus α) (max_iter : ℕ) (r1 r2 : ℕ → ℕ → ℚ),
      2 ≤ max_iter →
      c.plsaInit K r1 r2 = .ok c0 →
      Corpus.emBody lg K c0 = .ok c1 → Corpus.emBody lg K c1 = .ok c2 →
      |c2.likelihoods.getD 1 0 - c2.likelihoods.getD 0 0| < eps →
      Corpus.plsa lg c K max_iter eps r1 r2 = .ok c2 ∧
        c2.likelihoods.length = c0.likelihoods.length + 2) := by
  refine ⟨?_, ?_, ?_, ?_⟩
  · intro c fuel
    rfl
  · intro c fuel i hi
    show Outcome.bind (Corpus.emBody lg K c) _ = _
    congr 1
    funext c'
    by_cases hP : |c'.likelihoods.getD i 0 - c'.likelihoods.getD (i - 1) 0| < eps
    · rw [if_pos ⟨hi, hP⟩, if_pos hP]
    · rw [if_neg (fun hcon => hP hcon.2), if_neg hP]
  · intro c c1 c2 fuel h1 h2 hlt
    exact emLoop_two_iters lg K eps c c1 c2 fuel h1 h2 hlt
  · intro c c0 c1 c2 max_iter r1 r2 hmax hinit h1 h2 hlt
    obtain ⟨fuel, rfl⟩ : ∃ fuel, max_iter = fuel + 2 :=
      ⟨max_iter - 2, by omega⟩
    constructor
    · rw [plsa_eq_init_loop, hinit, Outcome.ok_bind]
      exact emLoop_two_iters lg K eps c0 c1 c2 fuel h1 h2 hlt
    · obtain ⟨_, _, _, _, _, x1, hx1⟩ := emBody_ok_inv lg K c0 c1 h1
      obtain ⟨_, _, _, _, _, x2, hx2⟩ := emBody_ok_inv lg K c1 c2 h2
      rw [hx2, hx1]
      simp

/-- the state `cOne` after one EM iteration body (with `lgZero`). -/
def cOneL1 : Corpus ℚ := { cOne with topic_prob := [[[1]]], likelihoods := [0] }

/-- the state `cOne` after two EM iteration bodies (with `lgZero`). -/
def cOneL2 : Corpus ℚ := { cOne with topic_prob := [[[1]]], likelihoods := [0, 0] }

attribute [local semireducible] Rat.add Rat.mul Rat.inv Rat.sub in
/-- witness for C6 at the concrete state `cOne`: two bodies run, the
difference `0` beats `epsilon = 1`, and the loop with budget 5 stops after
exactly two iterations. -/
theorem convergence_test_witness :
    Corpus.emBody lgZero 1 cOne = .ok cOneL1 ∧
    Corpus.emBody lgZero 1 cOneL1 = .ok cOneL2 ∧
    |cOneL2.likelihoods.getD 1 0 - cOneL2.likelihoods.getD 0 0| < (1 : ℚ) ∧
    Corpus.emLoop lgZero 1 (1 : ℚ) 5 0 cOne = .ok cOneL2 :=
  ⟨by decide, by decide, by decide,
    (convergence_test lgZero 1 (1 : ℚ)).2.2.1 cOne cOneL1 cOneL2 3
      (by decide) (by decide) (by decide)⟩

/-! ### Claim C10 — corpora with an empty document -/

/-- a row of `mkMat` is one of its member rows. -/
theorem mkMat_row_mem (m n : ℕ) (f : ℕ → ℕ → ℚ) (i : ℕ) (hi : i < m) :
    (List.range n).map (f i) ∈ mkMat m n f := by
  unfold mkMat
  exact List.mem_map.mpr ⟨i, List.mem_range.mpr hi, rfl⟩

/-- the sequence `build_corpus`; `build_vocabulary` performed by `main` before
calling `plsa`. -/
def builtCorpus (α : Type) (path : String) (lines : List (List String)) : Corpus α :=
  ((Corpus.init α path).build_corpus lines).build_vocabulary

/-- the `plsaInit` phase leaves the corpus data alone, builds the count
matrix, and produces tables of the shapes of the random draws. -/
theorem plsaInit_ok_inv (c c0 : Corpus α) (K : ℕ) (r1 r2 : ℕ → ℕ → ℚ)
    (h : c.plsaInit K r1 r2 = .ok c0) :
    c0.documents = c.documents ∧
    c0.vocabulary = c.vocabulary ∧
    c0.likelihoods = c.likelihoods ∧
    c0.number_of_documents = c.number_of_documents ∧
    c0.vocabulary_size = c.vocabulary_size ∧
    c0.term_doc_matrix = mkMat c.number_of_documents c.vocabulary_size (fun i j =>
      ((c.documents.getD i []).count (c.vocabulary.getD j "") : ℚ)) ∧
    matShape c0.document_topic_prob c.number_of_documents K ∧
    matShape c0.topic_word_prob K c.vocabulary.length := by
  unfold Corpus.plsaInit Corpus.init_tables Corpus.init_randomly at h
  rw [if_pos rfl] at h
  obtain ⟨dtp, hdtp, h2⟩ := bind_eq_ok _ _ _ h
  obtain ⟨twp, htwp, h3⟩ := bind_eq_ok _ _ _ h2
  injection h3 with h'
  rw [← h']
  refine ⟨rfl, rfl, rfl, rfl, rfl, rfl, ?_, ?_⟩
  · exact normalize_ok_shape _ _ _ _ hdtp (mkMat_shape _ _ _)
  · exact normalize_ok_shape _ _ _ _ htwp (mkMat_shape _ _ _)

/-- an empty document's row of the Θ accumulator is all zero. -/
theorem thetaAccum_empty_doc (ce : Corpus α) (e : ℕ)
    (he : e < ce.number_of_documents)
    (htm : ce.term_doc_matrix = mkMat ce.number_of_documents ce.vocabulary_size
      (fun i j => ((ce.documents.getD i []).count (ce.vocabulary.getD j "") : ℚ)))
    (hdoc : ce.documents.getD e [] = []) :
    ∀ t, Corpus.thetaAccum ce e t = 0 := by
  intro t
  unfold Corpus.thetaAccum
  rw [sum_map_range]
  apply Finset.sum_eq_zero
  intro w hw
  rw [htm, mget_mkMat, if_pos ⟨he, Finset.mem_range.mp hw⟩, hdoc]
  simp

/-- an all-zero Θ accumulator row makes the M-step raise the
row-sums-to-zero error, whichever of its two normalizations fails first. -/
theorem mstep_empty_doc_fails (ce : Corpus α) (e K : ℕ)
    (he : e < ce.number_of_documents)
    (hzero : ∀ t, Corpus.thetaAccum ce e t = 0)
    (hshape : matShape ce.document_topic_prob ce.number_of_documents K) :
    Corpus.maximization_step ce K = .error normMsg := by
  unfold Corpus.maximization_step
  rcases normalize_cases (overwrite ce.topic_word_prob K ce.vocabulary_size
      (fun t w => ce.phiAccum t w)) with ⟨B, hB⟩ | hB
  · rw [hB, Outcome.ok_bind]
    dsimp only
    have hover : overwrite ce.document_topic_prob ce.number_of_documents K
        (fun d t => Corpus.thetaAccum { ce with topic_word_prob := B } d t) =
        mkMat ce.number_of_documents K
          (fun d t => Corpus.thetaAccum { ce with topic_word_prob := B } d t) :=
      overwrite_full _ _ _ _ hshape
    rw [hover, normalize_err]
    · rfl
    · intro hall
      apply hall ((List.range K).map
        (fun t => Corpus.thetaAccum { ce with topic_word_prob := B } e t))
        (mkMat_row_mem _ _ _ e he)
      rw [sum_map_range]
      apply Finset.sum_eq_zero
      intro t _
      exact hzero t
  · rw [hB]
    rfl

/-- C10: if the corpus handed to `plsa` contains an empty document (a line
with no tokens), then whenever initialization and the first E-step go
through, the first M-step's Θ accumulator row for that document is all zero,
its row normalization raises the row-sums-to-zero error, and the whole `plsa`
call fails with that error during the first iteration.  (A corpus whose
documents are all empty cannot even pass initialization, so the interesting
case has at least one non-empty document.) -/
theorem empty_document_fails (lines : List (List String)) (path : String)
    (e K max_iter : ℕ) (eps : α) (lg : ℚ → α) (r1 r2 : ℕ → ℕ → ℚ)
    (he : e < lines.length) (hempty : lines.getD e [] = [])
    (hK : 1 ≤ K) (hIter : 1 ≤ max_iter)
    (hok : Outcome.isOk (Outcome.bind ((builtCorpus α path lines).plsaInit K r1 r2)
      Corpus.expectation_step) = true) :
    (∀ ce : Corpus α,
      Outcome.bind ((builtCorpus α path lines).plsaInit K r1 r2)
        Corpus.expectation_step = .ok ce →
      (∀ t, Corpus.thetaAccum ce e t = 0) ∧
      Corpus.maximization_step ce K = .error normMsg) ∧
    Corpus.plsa lg (builtCorpus α path lines) K max_iter eps r1 r2 = .error normMsg := by
  have core : ∀ ce : Corpus α,
      Outcome.bind ((builtCorpus α path lines).plsaInit K r1 r2)
        Corpus.expectation_step = .ok ce →
      (∀ t, Corpus.thetaAccum ce e t = 0) ∧
      Corpus.maximization_step ce K = .error normMsg := by
    intro ce hce
    obtain ⟨c0, h0, hE⟩ := bind_eq_ok _ _ _ hce
    obtain ⟨d0, v0, l0, n0, s0, tm0, shD0, shW0⟩ :=
      plsaInit_ok_inv (builtCorpus α path lines) c0 K r1 r2 h0
    obtain ⟨tmE, dtpE, twpE, lE, nE, sE, vE, dE⟩ := estep_ok_inv c0 ce hE
    have hnce : ce.number_of_documents = lines.length := by rw [nE, n0]; rfl
    have hdce : ce.documents = lines := by rw [dE, d0]; rfl
    have he' : e < ce.number_of_documents := by rw [hnce]; exact he
    have htm : ce.term_doc_matrix = mkMat ce.number_of_documents ce.vocabulary_size
        (fun i j => ((ce.documents.getD i []).count (ce.vocabulary.getD j "") : ℚ)) := by
      rw [tmE, tm0, dE, d0, vE, v0, nE, n0, sE, s0]
    have hdoc : ce.documents.getD e [] = [] := by rw [hdce]; exact hempty
    have hzero := thetaAccum_empty_doc ce e he' htm hdoc
    refine ⟨hzero, ?_⟩
    apply mstep_empty_doc_fails ce e K he' hzero
    rw [dtpE, nE, n0]
    exact shD0
  refine ⟨core, ?_⟩
  obtain ⟨ce0, hce0⟩ := (Outcome.isOk_iff _).mp hok
  obtain ⟨c0, h0, hE⟩ := bind_eq_ok _ _ _ hce0
  obtain ⟨fuel, rfl⟩ : ∃ fuel, max_iter = fuel + 1 := ⟨max_iter - 1, by omega⟩
  rw [plsa_eq_init_loop, h0, Outcome.ok_bind]
  show Outcome.bind (Corpus.emBody lg K c0) _ = _
  have hbody : Corpus.emBody lg K c0 = .error normMsg := by
    unfold Corpus.emBody
    rw [hE, Outcome.ok_bind, (core ce0 hce0).2]
    rfl
  rw [hbody]
  rfl

attribute [local semireducible] Rat.add Rat.mul Rat.inv Rat.sub in
/-- witness for C10: the corpus `[["a", "b"], []]` (one real document, one
empty line) with one topic fails during the first iteration. -/
theorem empty_document_fails_witness :
    1 < [["a", "b"], ([] : List String)].length ∧
    [["a", "b"], ([] : List String)].getD 1 [] = [] ∧
    Outcome.isOk (Outcome.bind
      ((builtCorpus ℚ "p" [["a", "b"], []]).plsaInit 1 onesF onesF)
      Corpus.expectation_step) = true ∧
    Corpus.plsa lgZero (builtCorpus ℚ "p" [["a", "b"], []]) 1 1 (1 : ℚ) onesF onesF
      = .error normMsg :=
  ⟨by decide, by decide, by decide,
    (empty_document_fails [["a", "b"], []] "p" 1 1 1 (1 : ℚ) lgZero onesF onesF
      (by decide) (by decide) (by decide) (by decide) (by decide)).2⟩

/-! ### Claim C2 — uniform initialization -/

/-- total count of vocabulary term `w` over all documents (a column sum of `C`). -/
def colTotal (c : Corpus α) (w : ℕ) : ℚ :=
  ∑ d in Finset.range c.number_of_documents, mget c.term_doc_matrix d w

/-- total count of document `d` (a row sum of `C`). -/
def rowTotal (c : Corpus α) (d : ℕ) : ℚ :=
  ∑ w in Finset.range c.vocabulary_size, mget c.term_doc_matrix d w

/-- total token count of the corpus. -/
def grandTotal (c : Corpus α) : ℚ :=
  ∑ w in Finset.range c.vocabulary_size, colTotal c w

/-- the count matrix is well-shaped, every document is non-empty and every
vocabulary term occurs somewhere (all true for a corpus built by
`build_term_doc_matrix` from non-empty documents over their own vocabulary). -/
def goodCounts (c : Corpus α) : Prop :=
  matShape c.term_doc_matrix c.number_of_documents c.vocabulary_size ∧
  (∀ d < c.number_of_documents, 0 < rowTotal c d) ∧
  (∀ w < c.vocabulary_size, 0 < colTotal c w)

instance (c : Corpus α) : Decidable (goodCounts c) := by
  unfold goodCounts; infer_instance

/-- the uniform document-topic table `Θ[d][k] = 1/K`. -/
def uniTheta (c : Corpus α) (K : ℕ) : Mat :=
  mkMat c.number_of_documents K (fun _ _ => (K : ℚ)⁻¹)

/-- the uniform topic-word table `Φ[k][w] = 1/V`. -/
def uniPhi (c : Corpus α) (K : ℕ) : Mat :=
  mkMat K c.vocabulary_size (fun _ _ => (c.vocabulary_size : ℚ)⁻¹)

/-- the topic-word table after one M-step from uniform start: every row is the
corpus term-frequency distribution. -/
def freqPhi (c : Corpus α) (K : ℕ) : Mat :=
  mkMat K c.vocabulary_size (fun _ w => colTotal c w / grandTotal c)

/-- the uniform posterior `Z[d][k][w] = 1/K`. -/
def uniZ (c : Corpus α) (K : ℕ) : Mat3 :=
  mkMat3 c.number_of_documents K c.vocabulary_size (fun _ _ _ => (K : ℚ)⁻¹)

/-- the likelihood value the tracker appends at the uniform-start fixed point. -/
def Lfix (lg : ℚ → α) (c : Corpus α) (K : ℕ) : α :=
  ∑ d in Finset.range c.number_of_documents, ∑ w in Finset.range c.vocabulary_size,
    ((mget c.term_doc_matrix d w : ℚ) : α) * lg (colTotal c w / grandTotal c)

/-- the E-step on a state whose `Θ` is row-constant (`u`) and whose `Φ` has
equal rows (`p`): every posterior entry becomes `1/K`. -/
theorem estep_fixed (c : Corpus α) (K : ℕ) (u : ℚ) (p : ℕ → ℚ)
    (hK : 1 ≤ K) (hu : u ≠ 0) (hp : ∀ w < c.vocabulary_size, p w ≠ 0)
    (hTheta : c.document_topic_prob = mkMat c.number_of_documents K (fun _ _ => u))
    (hPhi : c.topic_word_prob = mkMat K c.vocabulary_size (fun _ w => p w)) :
    c.expectation_step = .ok { c with topic_prob := uniZ c K } := by
  have hKQ : (K : ℚ) ≠ 0 := Nat.cast_ne_zero.mpr (by omega)
  have hlen : c.topic_word_prob.length = K := by
    rw [hPhi]; exact mkMat_length _ _ _
  have hS : ∀ i < c.number_of_documents, ∀ j < c.vocabulary_size,
      c.estepS i j = K * (u * p j) := by
    intro i hi j hj
    unfold Corpus.estepS
    rw [hlen, sum_map_range]
    have : ∀ k ∈ Finset.range K,
        mget c.document_topic_prob i k * mget c.topic_word_prob k j = u * p j := by
      intro k hk
      rw [hTheta, hPhi, mget_mkMat, mget_mkMat,
        if_pos ⟨hi, Finset.mem_range.mp hk⟩, if_pos ⟨Finset.mem_range.mp hk, hj⟩]
    rw [Finset.sum_congr rfl this, Finset.sum_const, Finset.card_range, nsmul_eq_mul]
  have hnd : c.noDegenerate := by
    intro i hi j hj
    rw [List.mem_range] at hi hj
    rw [hS i hi j hj]
    exact mul_ne_zero hKQ (mul_ne_zero hu (hp j hj))
  unfold Corpus.expectation_step
  rw [if_pos hnd]
  dsimp only
  have hZ : mkMat3 c.number_of_documents c.topic_word_prob.length c.vocabulary_size
      (fun i k j =>
        mget c.document_topic_prob i k * mget c.topic_word_prob k j / c.estepS i j) =
      uniZ c K := by
    rw [hlen]
    apply mkMat3_congr
    intro d hd k hk w hw
    rw [hTheta, hPhi, mget_mkMat, mget_mkMat, if_pos ⟨hd, hk⟩, if_pos ⟨hk, hw⟩,
      hS d hd w hw, mul_comm (K : ℚ) (u * p w),
      div_mul_cancel_left₀ (mul_ne_zero hu (hp w hw))]
  rw [hZ]

theorem rowSumF_eq (n : ℕ) (f : ℕ → ℕ → ℚ) (i : ℕ) :
    rowSumF n f i = ∑ j in Finset.range n, f i j := sum_map_range _ _

/-- Step B's accumulator does not depend on the topic-word table. -/
theorem thetaAccum_twp_irrel (c : Corpus α) (B : Mat) (d t : ℕ) :
    Corpus.thetaAccum { c with topic_word_prob := B } d t = Corpus.thetaAccum c d t := rfl

/-- the M-step on a state whose posterior is uniformly `1/K`: `Θ` becomes
uniform and every row of `Φ` becomes the corpus term-frequency distribution. -/
theorem mstep_fixed (c : Corpus α) (K : ℕ)
    (hK : 1 ≤ K) (hV : 1 ≤ c.vocabulary_size) (hgc : goodCounts c)
    (hZ : c.topic_prob = uniZ c K)
    (hShapePhi : matShape c.topic_word_prob K c.vocabulary_size)
    (hShapeTheta : matShape c.document_topic_prob c.number_of_documents K) :
    c.maximization_step K =
      .ok { c with document_topic_prob := uniTheta c K, topic_word_prob := freqPhi c K } := by
  have hKQ : (K : ℚ) ≠ 0 := Nat.cast_ne_zero.mpr (by omega)
  obtain ⟨hshape, hrow, hcol⟩ := hgc
  have hT : 0 < grandTotal c := by
    apply Finset.sum_pos
    · intro w hw
      exact hcol w (Finset.mem_range.mp hw)
    · exact Finset.nonempty_range_iff.mpr (by omega)
  have hPhiAcc : ∀ t < K, ∀ w < c.vocabulary_size,
      c.phiAccum t w = colTotal c w * (K : ℚ)⁻¹ := by
    intro t ht w hw
    unfold Corpus.phiAccum
    rw [sum_map_range]
    have hterm : ∀ d ∈ Finset.range c.number_of_documents,
        mget c.term_doc_matrix d w * tget c.topic_prob d t w =
          mget c.term_doc_matrix d w * (K : ℚ)⁻¹ := by
      intro d hd
      rw [hZ]
      show _ * tget (mkMat3 _ _ _ _) d t w = _
      rw [tget_mkMat3, if_pos ⟨Finset.mem_range.mp hd, ht, hw⟩]
    rw [Finset.sum_congr rfl hterm, ← Finset.sum_mul]
    rfl
  have hThetaAcc : ∀ d < c.number_of_documents, ∀ t < K,
      Corpus.thetaAccum c d t = rowTotal c d * (K : ℚ)⁻¹ := by
    intro d hd t ht
    unfold Corpus.thetaAccum
    rw [sum_map_range]
    have hterm : ∀ w ∈ Finset.range c.vocabulary_size,
        mget c.term_doc_matrix d w * tget c.topic_prob d t w =
          mget c.term_doc_matrix d w * (K : ℚ)⁻¹ := by
      intro w hw
      rw [hZ]
      show _ * tget (mkMat3 _ _ _ _) d t w = _
      rw [tget_mkMat3, if_pos ⟨hd, ht, Finset.mem_range.mp hw⟩]
    rw [Finset.sum_congr rfl hterm, ← Finset.sum_mul]
    rfl
  unfold Corpus.maximization_step
  rw [overwrite_full _ _ _ _ hShapePhi]
  have h1 : mkMat K c.vocabulary_size (fun t w => c.phiAccum t w) =
      mkMat K c.vocabulary_size (fun t w => colTotal c w * (K : ℚ)⁻¹) :=
    mkMat_congr _ _ _ _ (fun t ht w hw => hPhiAcc t ht w hw)
  rw [h1]
  have hrs1 : ∀ i < K,
      rowSumF c.vocabulary_size (fun t w => colTotal c w * (K : ℚ)⁻¹) i ≠ 0 := by
    intro i hi
    rw [rowSumF_eq, ← Finset.sum_mul]
    exact mul_ne_zero hT.ne' (inv_ne_zero hKQ)
  rw [normalize_mkMat _ _ _ hrs1, Outcome.ok_bind]
  dsimp only
  rw [overwrite_full _ _ _ _ hShapeTheta]
  simp only [thetaAccum_twp_irrel]
  have h2 : mkMat c.number_of_documents K (fun d t => Corpus.thetaAccum c d t) =
      mkMat c.number_of_documents K (fun d t => rowTotal c d * (K : ℚ)⁻¹) :=
    mkMat_congr _ _ _ _ (fun d hd t ht => hThetaAcc d hd t ht)
  rw [h2]
  have hrs2 : ∀ i < c.number_of_documents,
      rowSumF K (fun d t => rowTotal c d * (K : ℚ)⁻¹) i ≠ 0 := by
    intro i hi
    rw [rowSumF_eq, Finset.sum_const, Finset.card_range, nsmul_eq_mul]
    exact mul_ne_zero hKQ (mul_ne_zero (hrow i hi).ne' (inv_ne_zero hKQ))
  rw [normalize_mkMat _ _ _ hrs2, Outcome.ok_bind]
  have hPhiN : mkMat K c.vocabulary_size (fun i j =>
      colTotal c j * (K : ℚ)⁻¹ /
        rowSumF c.vocabulary_size (fun t w => colTotal c w * (K : ℚ)⁻¹) i) =
      freqPhi c K := by
    apply mkMat_congr
    intro i hi j hj
    rw [rowSumF_eq, ← Finset.sum_mul]
    show colTotal c j * (K : ℚ)⁻¹ / (grandTotal c * (K : ℚ)⁻¹) = _
    rw [mul_div_mul_right _ _ (inv_ne_zero hKQ)]
  have hThetaN : mkMat c.number_of_documents K (fun i j =>
      rowTotal c i * (K : ℚ)⁻¹ /
        rowSumF K (fun d t => rowTotal c d * (K : ℚ)⁻¹) i) =
      uniTheta c K := by
    apply mkMat_congr
    intro i hi j hj
    rw [rowSumF_eq, Finset.sum_const, Finset.card_range, nsmul_eq_mul,
      mul_comm (K : ℚ) (rowTotal c i * (K : ℚ)⁻¹),
      div_mul_cancel_left₀ (mul_ne_zero (hrow i hi).ne' (inv_ne_zero hKQ))]
  rw [hPhiN, hThetaN]

/-- the likelihood step at the fixed tables: every mixture equals the term
frequency and the appended value is `Lfix`. -/
theorem likelihood_fixed (lg : ℚ → α) (c : Corpus α) (K : ℕ)
    (hK : 1 ≤ K) (hgc : goodCounts c)
    (hTheta : c.document_topic_prob = uniTheta c K)
    (hPhi : c.topic_word_prob = freqPhi c K) :
    c.calculate_likelihood lg K =
      .ok { c with likelihoods := c.likelihoods ++ [Lfix lg c K] } := by
  have hKQ : (K : ℚ) ≠ 0 := Nat.cast_ne_zero.mpr (by omega)
  obtain ⟨hshape, hrow, hcol⟩ := hgc
  have hmix : ∀ i < c.number_of_documents, ∀ j < c.vocabulary_size,
      c.lmix K i j = colTotal c j / grandTotal c := by
    intro i hi j hj
    unfold Corpus.lmix
    rw [sum_map_range]
    have hterm : ∀ k ∈ Finset.range K,
        mget c.document_topic_prob i k * mget c.topic_word_prob k j =
          (K : ℚ)⁻¹ * (colTotal c j / grandTotal c) := by
      intro k hk
      rw [hTheta, hPhi]
      show mget (mkMat _ _ _) i k * mget (mkMat _ _ _) k j = _
      rw [mget_mkMat, mget_mkMat, if_pos ⟨hi, Finset.mem_range.mp hk⟩,
        if_pos ⟨Finset.mem_range.mp hk, hj⟩]
    rw [Finset.sum_congr rfl hterm, Finset.sum_const, Finset.card_range, nsmul_eq_mul,
      ← mul_assoc, mul_inv_cancel₀ hKQ, one_mul]
  have hLD : c.logDefined K := by
    intro i hi j hj
    rw [List.mem_range] at hi hj
    rw [hmix i hi j hj]
    have hT : 0 < grandTotal c := by
      apply Finset.sum_pos
      · intro w hw
        exact hcol w (Finset.mem_range.mp hw)
      · exact Finset.nonempty_range_iff.mpr (by omega)
    exact div_pos (hcol j hj) hT
  unfold Corpus.calculate_likelihood
  rw [if_pos hLD]
  have hcl : c.currLog lg K = Lfix lg c K := by
    unfold Corpus.currLog Lfix
    rw [sum_map_range]
    apply Finset.sum_congr rfl
    intro i hi
    rw [sum_map_range]
    apply Finset.sum_congr rfl
    intro j hj
    rw [hmix i (Finset.mem_range.mp hi) j (Finset.mem_range.mp hj)]
  rw [hcl]

/-- one full EM iteration body from row-constant tables (uniform start, or the
fixed point itself): the posterior becomes uniformly `1/K`, `Θ` uniform, `Φ`
the term-frequency rows, and `Lfix` is appended to the trace. -/
theorem emBody_from_const (lg : ℚ → α) (c : Corpus α) (K : ℕ) (u : ℚ) (p : ℕ → ℚ)
    (hK : 1 ≤ K) (hV : 1 ≤ c.vocabulary_size) (hgc : goodCounts c)
    (hu : u ≠ 0) (hp : ∀ w < c.vocabulary_size, p w ≠ 0)
    (hTheta : c.document_topic_prob = mkMat c.number_of_documents K (fun _ _ => u))
    (hPhi : c.topic_word_prob = mkMat K c.vocabulary_size (fun _ w => p w)) :
    Corpus.emBody lg K c =
      .ok { c with
            document_topic_prob := uniTheta c K,
            topic_word_prob := freqPhi c K,
            topic_prob := uniZ c K,
            likelihoods := c.likelihoods ++ [Lfix lg c K] } := by
  unfold Corpus.emBody
  rw [estep_fixed c K u p hK hu hp hTheta hPhi, Outcome.ok_bind]
  have hsh1 : matShape ({ c with topic_prob := uniZ c K } : Corpus α).topic_word_prob K
      ({ c with topic_prob := uniZ c K } : Corpus α).vocabulary_size := by
    show matShape c.topic_word_prob K c.vocabulary_size
    rw [hPhi]
    exact mkMat_shape _ _ _
  have hsh2 : matShape ({ c with topic_prob := uniZ c K } : Corpus α).document_topic_prob
      ({ c with topic_prob := uniZ c K } : Corpus α).number_of_documents K := by
    show matShape c.document_topic_prob c.number_of_documents K
    rw [hTheta]
    exact mkMat_shape _ _ _
  rw [mstep_fixed ({ c with topic_prob := uniZ c K }) K hK hV hgc rfl hsh1 hsh2,
    Outcome.ok_bind]
  exact (likelihood_fixed lg _ K hK (by exact hgc) (by rfl) (by rfl)).trans rfl

/-- the tables are at the uniform-start fixed point. -/
def fixedState (c : Corpus α) (K : ℕ) : Prop :=
  1 ≤ K ∧ 1 ≤ c.vocabulary_size ∧ goodCounts c ∧
  c.document_topic_prob = uniTheta c K ∧ c.topic_word_prob = freqPhi c K

theorem emBody_fixed (lg : ℚ → α) (c : Corpus α) (K : ℕ) (h : fixedState c K) :
    Corpus.emBody lg K c =
      .ok { c with
            document_topic_prob := uniTheta c K,
            topic_word_prob := freqPhi c K,
            topic_prob := uniZ c K,
            likelihoods := c.likelihoods ++ [Lfix lg c K] } := by
  obtain ⟨hK, hV, hgc, hTheta, hPhi⟩ := h
  have hT : 0 < grandTotal c := by
    apply Finset.sum_pos
    · intro w hw
      exact hgc.2.2 w (Finset.mem_range.mp hw)
    · exact Finset.nonempty_range_iff.mpr (by omega)
  apply emBody_from_const lg c K ((K : ℚ)⁻¹) (fun w => colTotal c w / grandTotal c) hK hV hgc
  · exact inv_ne_zero (Nat.cast_ne_zero.mpr (by omega))
  · intro w hw
    exact (div_pos (hgc.2.2 w hw) hT).ne'
  · exact hTheta
  · exact hPhi

theorem fixedState_update (c : Corpus α) (K : ℕ) (h : fixedState c K) (Z : Mat3)
    (l : List α) :
    fixedState
      { c with
        document_topic_prob := uniTheta c K,
        topic_word_prob := freqPhi c K,
        topic_prob := Z,
        likelihoods := l } K := by
  obtain ⟨hK, hV, hgc, _, _⟩ := h
  exact ⟨hK, hV, hgc, rfl, rfl⟩

theorem getD_replicate {β : Type} (n : ℕ) (a d : β) (i : ℕ) :
    (List.replicate n a).getD i d = if i < n then a else d := by
  rw [List.getD_eq_getElem?_getD, List.getElem?_replicate]
  split <;> rfl

/-- with `epsilon ≤ 0` the strict convergence test never fires: from a fixed
state carrying a constant trace, the loop burns its whole budget, appending
the same value every iteration. -/
theorem emLoop_stuck (lg : ℚ → α) (K : ℕ) (eps : α) (heps : eps ≤ 0) (L : α) :
    ∀ (fuel i : ℕ) (c : Corpus α), fixedState c K → Lfix lg c K = L →
      c.likelihoods = List.replicate i L →
      ∃ t : Corpus α, Corpus.emLoop lg K eps fuel i c = .ok t ∧
        t.likelihoods = List.replicate (i + fuel) L := by
  intro fuel
  induction fuel with
  | zero =>
      intro i c hfix hL hrep
      exact ⟨c, rfl, by simpa using hrep⟩
  | succ n ih =>
      intro i c hfix hL hrep
      have hstep : Corpus.emLoop lg K eps (n + 1) i c =
          Outcome.bind (Corpus.emBody lg K c) (fun c' =>
            if 1 ≤ i ∧
                |c'.likelihoods.getD i 0 - c'.likelihoods.getD (i - 1) 0| < eps then
              .ok c'
            else Corpus.emLoop lg K eps n (i + 1) c') := rfl
      rw [hstep, emBody_fixed lg c K hfix, Outcome.ok_bind]
      dsimp only
      have hlik' : c.likelihoods ++ [Lfix lg c K] = List.replicate (i + 1) L := by
        rw [hrep, hL]
        exact (List.replicate_succ' i L).symm
      rw [hlik']
      have hcond : ¬ (1 ≤ i ∧
          |(List.replicate (i + 1) L).getD i 0 -
            (List.replicate (i + 1) L).getD (i - 1) 0| < eps) := by
        rintro ⟨_, hlt⟩
        rw [getD_replicate, getD_replicate, if_pos (by omega), if_pos (by omega),
          sub_self, abs_zero] at hlt
        exact absurd hlt (not_lt.mpr heps)
      rw [if_neg hcond]
      obtain ⟨t, ht, hrepT⟩ :=
        ih (i + 1) _ (fixedState_update c K hfix (uniZ c K) (List.replicate (i + 1) L))
          (by exact hL) (by exact rfl)
      refine ⟨t, ht, ?_⟩
      rw [hrepT]
      congr 1
      omega

/-- the uniform initializer produces exactly the uniform tables. -/
theorem init_uniformly_uniform (c : Corpus α) (K : ℕ) (hK : 1 ≤ K)
    (hV : 1 ≤ c.vocabulary_size) (hvoc : c.vocabulary.length = c.vocabulary_size) :
    c.init_uniformly K =
      .ok { c with
            document_topic_prob := uniTheta c K,
            topic_word_prob := uniPhi c K } := by
  unfold Corpus.init_uniformly
  rw [normalize_ones _ _ hK, Outcome.ok_bind, hvoc, normalize_ones _ _ hV, Outcome.ok_bind]
  rfl

theorem emLoop_step0 (lg : ℚ → α) (K : ℕ) (eps : α) (c : Corpus α) (fuel : ℕ) :
    Corpus.emLoop lg K eps (fuel + 1) 0 c =
      Outcome.bind (Corpus.emBody lg K c) (Corpus.emLoop lg K eps fuel 1) := rfl

/-- C2 (amended): starting from the uniform tables `Θ[d][k] = 1/K` and
`Φ[k][w] = 1/V` produced by the uniform initializer, one E-step yields
`Z[d][k][w] = 1/K` for all `d, k, w`.  The subsequent M-step reproduces
exactly the same uniform `Θ`, but maps every row of `Φ` to the corpus
term-frequency distribution (so `Φ` itself is reproduced only when all terms
have equal total counts).  The tables are a fixed point from then on, so the
likelihood trace is constant across iterations; with `epsilon ≤ 0` the strict
test never fires and the loop burns its whole budget appending the same value
each time, while for any `epsilon > 0` convergence is immediate — the loop
stops after exactly two iterations whenever the budget allows a second one. -/
theorem uniform_start (lg : ℚ → α) (cb : Corpus α) (K : ℕ) (eps : α)
    (hK : 1 ≤ K) (hV : 1 ≤ cb.vocabulary_size)
    (hvoc : cb.vocabulary.length = cb.vocabulary_size)
    (hgc : goodCounts cb) (hlik : cb.likelihoods = []) :
    cb.init_uniformly K =
      .ok { cb with
            document_topic_prob := uniTheta cb K,
            topic_word_prob := uniPhi cb K } ∧
    (∀ d < cb.number_of_documents, ∀ k < K, ∀ w < cb.vocabulary_size,
      tget (uniZ cb K) d k w = (K : ℚ)⁻¹) ∧
    Corpus.expectation_step
      { cb with
        document_topic_prob := uniTheta cb K,
        topic_word_prob := uniPhi cb K } =
      .ok { cb with
            document_topic_prob := uniTheta cb K,
            topic_word_prob := uniPhi cb K,
            topic_prob := uniZ cb K } ∧
    Corpus.maximization_step
      { cb with
        document_topic_prob := uniTheta cb K,
        topic_word_prob := uniPhi cb K,
        topic_prob := uniZ cb K } K =
      .ok { cb with
            document_topic_prob := uniTheta cb K,
            topic_word_prob := freqPhi cb K,
            topic_prob := uniZ cb K } ∧
    (eps ≤ 0 → ∀ fuel : ℕ,
      ∃ t : Corpus α, Corpus.emLoop lg K eps fuel 0
          { cb with
            document_topic_prob := uniTheta cb K,
            topic_word_prob := uniPhi cb K } = .ok t ∧
        t.likelihoods = List.replicate fuel (Lfix lg cb K)) ∧
    (0 < eps → ∀ fuel : ℕ,
      ∃ t : Corpus α, Corpus.emLoop lg K eps (fuel + 2) 0
          { cb with
            document_topic_prob := uniTheta cb K,
            topic_word_prob := uniPhi cb K } = .ok t ∧
        t.likelihoods = [Lfix lg cb K, Lfix lg cb K]) := by
  have hKQ : (K : ℚ) ≠ 0 := Nat.cast_ne_zero.mpr (by omega)
  have hVQ : (cb.vocabulary_size : ℚ) ≠ 0 := Nat.cast_ne_zero.mpr (by omega)
  refine ⟨init_uniformly_uniform cb K hK hV hvoc, ?_, ?_, ?_, ?_, ?_⟩
  · intro d hd k hk w hw
    unfold uniZ
    rw [tget_mkMat3, if_pos ⟨hd, hk, hw⟩]
  · exact (estep_fixed _ K ((K : ℚ)⁻¹) (fun _ => (cb.vocabulary_size : ℚ)⁻¹) hK
      (inv_ne_zero hKQ) (fun w hw => inv_ne_zero hVQ) (by rfl) (by rfl)).trans rfl
  · exact (mstep_fixed _ K hK (by exact hV) (by exact hgc) (by rfl)
      (by show matShape (uniPhi cb K) K cb.vocabulary_size; exact mkMat_shape _ _ _)
      (by show matShape (uniTheta cb K) cb.number_of_documents K;
          exact mkMat_shape _ _ _)).trans rfl
  · intro heps fuel
    cases fuel with
    | zero => exact ⟨_, rfl, by exact hlik⟩
    | succ n =>
        have hb := emBody_from_const lg
          ({ cb with
             document_topic_prob := uniTheta cb K,
             topic_word_prob := uniPhi cb K })
          K ((K : ℚ)⁻¹) (fun _ => (cb.vocabulary_size : ℚ)⁻¹) hK (by exact hV)
          (by exact hgc) (inv_ne_zero hKQ) (fun w hw => inv_ne_zero hVQ) (by rfl) (by rfl)
        rw [emLoop_step0, hb, Outcome.ok_bind]
        obtain ⟨t, ht, hrepT⟩ := emLoop_stuck lg K eps heps (Lfix lg cb K) n 1
          ({ cb with
             document_topic_prob := uniTheta cb K,
             topic_word_prob := freqPhi cb K,
             topic_prob := uniZ cb K,
             likelihoods := cb.likelihoods ++ [Lfix lg cb K] })
          ⟨hK, by exact hV, by exact hgc, rfl, rfl⟩ (by rfl)
          (by show cb.likelihoods ++ [Lfix lg cb K] = _
              rw [hlik]
              rfl)
        refine ⟨t, by exact ht, ?_⟩
        rw [hrepT, Nat.add_comm]
  · intro heps fuel
    have hb := emBody_from_const lg
      ({ cb with
         document_topic_prob := uniTheta cb K,
         topic_word_prob := uniPhi cb K })
      K ((K : ℚ)⁻¹) (fun _ => (cb.vocabulary_size : ℚ)⁻¹) hK (by exact hV)
      (by exact hgc) (inv_ne_zero hKQ) (fun w hw => inv_ne_zero hVQ) (by rfl) (by rfl)
    have h1 : Corpus.emBody lg K
        { cb with
          document_topic_prob := uniTheta cb K,
          topic_word_prob := uniPhi cb K } =
        .ok { cb with
              document_topic_prob := uniTheta cb K,
              topic_word_prob := freqPhi cb K,
              topic_prob := uniZ cb K,
              likelihoods := cb.likelihoods ++ [Lfix lg cb K] } := hb
    have h2 : Corpus.emBody lg K
        { cb with
          document_topic_prob := uniTheta cb K,
          topic_word_prob := freqPhi cb K,
          topic_prob := uniZ cb K,
          likelihoods := cb.likelihoods ++ [Lfix lg cb K] } =
        .ok { cb with
              document_topic_prob := uniTheta cb K,
              topic_word_prob := freqPhi cb K,
              topic_prob := uniZ cb K,
              likelihoods := (cb.likelihoods ++ [Lfix lg cb K]) ++ [Lfix lg cb K] } := by
      exact (emBody_fixed lg _ K ⟨hK, by exact hV, by exact hgc, rfl, rfl⟩).trans rfl
    have hl2 : ({ cb with
        document_topic_prob := uniTheta cb K,
        topic_word_prob := freqPhi cb K,
        topic_prob := uniZ cb K,
        likelihoods := (cb.likelihoods ++ [Lfix lg cb K]) ++ [Lfix lg cb K] } :
          Corpus α).likelihoods = [Lfix lg cb K, Lfix lg cb K] := by
      show (cb.likelihoods ++ [Lfix lg cb K]) ++ [Lfix lg cb K] = _
      rw [hlik]
      rfl
    refine ⟨_, emLoop_two_iters lg K eps _ _ _ fuel h1 h2 ?_, hl2⟩
    rw [hl2]
    show |Lfix lg cb K - Lfix lg cb K| < eps
    rw [sub_self, abs_zero]
    exact heps

/-- the topic-word table of a successful run. -/
def getTwp : Outcome (Corpus ℚ) → Option Mat
  | .ok c => some c.topic_word_prob
  | .error _ => none
  | .exited _ => none

attribute [local semireducible] Rat.add Rat.mul Rat.inv Rat.sub in
/-- counterexample to C2: on the corpus `["a a b"]` with two topics, uniform
initialization gives `Φ = [[1/2, 1/2], [1/2, 1/2]]`, but after one E-step and
one M-step `Φ = [[2/3, 1/3], [2/3, 1/3]]` — the M-step does not reproduce the
uniform `Φ`.  Moreover on the example corpus with `epsilon = 0` the loop runs
all 3 budgeted iterations (trace length 3), so convergence is not immediate
for every `epsilon ≥ 0`. -/
theorem uniform_fixed_point_cx :
    getTwp (Outcome.bind (cAsym.build_term_doc_matrix.init_uniformly 2) (fun c =>
      Outcome.bind c.expectation_step (fun c => c.maximization_step 2))) =
      some [[2/3, 1/3], [2/3, 1/3]] ∧
    getTwp (cAsym.build_term_doc_matrix.init_uniformly 2) =
      some [[1/2, 1/2], [1/2, 1/2]] ∧
    ([[2/3, 1/3], [2/3, 1/3]] : Mat) ≠ [[1/2, 1/2], [1/2, 1/2]] ∧
    traceLen (Outcome.bind (cEx.build_term_doc_matrix.init_uniformly 2) (fun c =>
      Corpus.emLoop lgId 2 (0 : ℚ) 3 0 c)) = some 3 :=
  ⟨by decide, by decide, by decide, by decide⟩

attribute [local semireducible] Rat.add Rat.mul Rat.inv Rat.sub in
/-- witness for C2 (amended) on the spec's example corpus with two topics and
`epsilon = 1`: the loop from the uniform start stops with the two-element
constant trace. -/
theorem uniform_start_witness :
    (1 ≤ 2 ∧ 1 ≤ cEx.build_term_doc_matrix.vocabulary_size ∧
      cEx.build_term_doc_matrix.vocabulary.length =
        cEx.build_term_doc_matrix.vocabulary_size ∧
      goodCounts cEx.build_term_doc_matrix ∧
      cEx.build_term_doc_matrix.likelihoods = [] ∧ (0 : ℚ) < 1) ∧
    (∃ t : Corpus ℚ, Corpus.emLoop lgZero 2 (1 : ℚ) (0 + 2) 0
        { cEx.build_term_doc_matrix with
          document_topic_prob := uniTheta cEx.build_term_doc_matrix 2,
          topic_word_prob := uniPhi cEx.build_term_doc_matrix 2 } = .ok t ∧
      t.likelihoods = [Lfix lgZero cEx.build_term_doc_matrix 2,
        Lfix lgZero cEx.build_term_doc_matrix 2]) :=
  ⟨⟨by decide, by decide, by decide, by decide, by decide, by decide⟩,
    (uniform_start lgZero cEx.build_term_doc_matrix 2 (1 : ℚ) (by decide) (by decide)
      (by decide) (by decide) (by decide)).2.2.2.2.2 (by decide) 0⟩

end Plsa
